import Mathlib

/-!
Verification of the rule-based lexical sentiment scorer in `src/main.js`
(blob_rebuild repository).

Shallow embedding conventions:
* JS strings are modelled as `List Char` (`Str`); `String.toLowerCase` is
  modelled as per-character ASCII case folding (all inputs of interest are
  ASCII plus the curly apostrophe, which JS `toLowerCase` leaves unchanged).
* JS numbers (lexicon weights, modifier factors) are modelled as exact
  rationals `ℚ`; the source only multiplies, compares and adds them, so the
  rational model mirrors the float computation structurally.
* JS objects used as string-keyed maps are modelled as insertion-ordered
  association lists `List (Str × ℚ)` with first-match lookup and
  update-or-append assignment, matching JS object semantics for distinct
  keys.
-/

abbrev Str := List Char

/-- Coerce a Lean string literal to the `List Char` model. -/
def str (x : String) : Str := x.data

/-- ASCII case folding of a single character, as JS `toLowerCase` acts on
the ASCII range (everything else is left unchanged). -/
def lowerChar (c : Char) : Char :=
  if c = 'A' then 'a' else if c = 'B' then 'b' else if c = 'C' then 'c'
  else if c = 'D' then 'd' else if c = 'E' then 'e' else if c = 'F' then 'f'
  else if c = 'G' then 'g' else if c = 'H' then 'h' else if c = 'I' then 'i'
  else if c = 'J' then 'j' else if c = 'K' then 'k' else if c = 'L' then 'l'
  else if c = 'M' then 'm' else if c = 'N' then 'n' else if c = 'O' then 'o'
  else if c = 'P' then 'p' else if c = 'Q' then 'q' else if c = 'R' then 'r'
  else if c = 'S' then 's' else if c = 'T' then 't' else if c = 'U' then 'u'
  else if c = 'V' then 'v' else if c = 'W' then 'w' else if c = 'X' then 'x'
  else if c = 'Y' then 'y' else if c = 'Z' then 'z' else c

/-- `text.toLowerCase()`. -/
def jsLower (l : Str) : Str := l.map lowerChar

/-- `raw.replace("’", "'")` — JS `replace` with a string pattern replaces
only the first occurrence. -/
def replaceFirstCurly : Str → Str
  | [] => []
  | c :: rest => if c = '’' then '\'' :: rest else c :: replaceFirstCurly rest

/-- One contraction-canonicalization step:
`if (w === pa || w === pb) w = out;`. -/
def canon (pa pb out w : Str) : Str :=
  if w = pa ∨ w = pb then out else w

/-- The fixed contraction table of `normalizeToken` (main.js lines 319-325),
applied in source order. -/
def canonContractions (w : Str) : Str :=
  canon (str "aren't") (str "arent") (str "arent")
    (canon (str "isn't") (str "isnt") (str "isnt")
      (canon (str "didn't") (str "didnt") (str "didnt")
        (canon (str "don't") (str "dont") (str "dont")
          (canon (str "won't") (str "wont") (str "wont")
            (canon (str "can't") (str "cant") (str "cant")
              (canon (str "i'm") (str "im") (str "im") w))))))

/-- Lower-casing, apostrophe standardization and contraction
canonicalization: everything `normalizeToken` does before suffix
stripping (the JS `original` snapshot is taken after this point). -/
def preStrip (raw : Str) : Str :=
  canonContractions (replaceFirstCurly (jsLower raw))

/-- `suf` is a suffix of `w` (JS `w.endsWith(suf)`). -/
def sfx (suf w : Str) : Bool := List.isSuffixOf suf w

/-- Plural rule: strip trailing "s" unless the word ends in "ss"
(length ≥ 5). `w.slice(0, -1)` is `take (length - 1)`. -/
def ruleS (w : Str) : Str :=
  if decide (5 ≤ w.length) && sfx (str "s") w && !sfx (str "ss") w then
    w.take (w.length - 1)
  else w

/-- Strip trailing "ly" (length ≥ 6). -/
def ruleLy (w : Str) : Str :=
  if decide (6 ≤ w.length) && sfx (str "ly") w then w.take (w.length - 2) else w

/-- Strip trailing "ness" (length ≥ 7). -/
def ruleNess (w : Str) : Str :=
  if decide (7 ≤ w.length) && sfx (str "ness") w then w.take (w.length - 4) else w

/-- Strip trailing "ing" (length ≥ 7). -/
def ruleIng (w : Str) : Str :=
  if decide (7 ≤ w.length) && sfx (str "ing") w then w.take (w.length - 3) else w

/-- Strip trailing "ed" (length ≥ 6). -/
def ruleEd (w : Str) : Str :=
  if decide (6 ≤ w.length) && sfx (str "ed") w then w.take (w.length - 2) else w

/-- Strip trailing "est" (length ≥ 6), else strip trailing "er"
(length ≥ 6) — an if/else chain in the source. -/
def ruleEstEr (w : Str) : Str :=
  if decide (6 ≤ w.length) && sfx (str "est") w then w.take (w.length - 3)
  else if decide (6 ≤ w.length) && sfx (str "er") w then w.take (w.length - 2)
  else w

/-- The suffix-stripping cascade of `normalizeToken`, rules applied once
each in source order on the evolving word. -/
def stripRules (w : Str) : Str :=
  ruleEstEr (ruleEd (ruleIng (ruleNess (ruleLy (ruleS w)))))

/-- `normalizeToken` (main.js lines 312-367): lower-case, standardize the
curly apostrophe, canonicalize contractions, strip suffixes once each, and
fall back to the pre-stripping form if stripping left fewer than 2
characters. -/
def normalizeToken (raw : Str) : Str :=
  if raw = [] then []
  else
    let original := preStrip raw
    let w := stripRules original
    if w.length < 2 then original else w

/-- A character matched by the tokenizer regex `[a-z']+`. -/
def isWordChar (c : Char) : Bool :=
  (decide ('a' ≤ c) && decide (c ≤ 'z')) || decide (c = '\'')

/-- Splits a character list into the maximal runs of word characters, as
the global regex match `[a-z']+` does; `acc` holds the current run in
reverse. -/
def splitRunsGo : Str → Str → List Str
  | [], acc => if acc = [] then [] else [acc.reverse]
  | c :: rest, acc =>
    if isWordChar c then splitRunsGo rest (c :: acc)
    else if acc = [] then splitRunsGo rest []
    else acc.reverse :: splitRunsGo rest []

/-- `text.match(/[a-z']+/g) || []` on an already lower-cased text. -/
def splitRuns (l : Str) : List Str := splitRunsGo l []

/-- `tokenize` (main.js lines 370-373): lower-case the text, extract the
`[a-z']+` runs, and normalize each. -/
def tokenize (text : Str) : List Str :=
  (splitRuns (jsLower text)).map normalizeToken

/-- The three emotion keys of every lexicon. -/
inductive Emotion
  | anger
  | joy
  | sad
deriving DecidableEq, Repr

/-- The source iterates `Object.keys` of the normalized lexicon object,
whose keys were created in the order anger, joy, sad. -/
def emotionOrder : List Emotion := [Emotion.anger, Emotion.joy, Emotion.sad]

/-- An emotion → (token-or-phrase → weight) table; each per-emotion map is
an insertion-ordered association list. -/
structure Lexicon where
  anger : List (Str × ℚ)
  joy : List (Str × ℚ)
  sad : List (Str × ℚ)
deriving DecidableEq

/-- `lexicon[emotion]`. -/
def Lexicon.table : Lexicon → Emotion → List (Str × ℚ)
  | lex, Emotion.anger => lex.anger
  | lex, Emotion.joy => lex.joy
  | lex, Emotion.sad => lex.sad

/-- `obj[key]` on a JS object modelled as an association list:
first-match lookup. -/
def lookupTab : List (Str × ℚ) → Str → Option ℚ
  | [], _ => none
  | e :: rest, k => if e.1 = k then some e.2 else lookupTab rest k

/-- `obj[key] = v` on a JS object: overwrite the existing entry in place,
else append a new one. -/
def updAssoc (m : List (Str × ℚ)) (k : Str) (v : ℚ) : List (Str × ℚ) :=
  if m.any fun e => decide (e.1 = k) then
    m.map fun e => if e.1 = k then (k, v) else e
  else m ++ [(k, v)]

/-- `out[k] = Math.max(out[k] ?? 0, weight)`. -/
def insMax (m : List (Str × ℚ)) (k : Str) (v : ℚ) : List (Str × ℚ) :=
  updAssoc m k (max ((lookupTab m k).getD 0) v)

/-- `rawKey.includes(" ")`. -/
def hasSpace (l : Str) : Bool := l.any fun c => decide (c = ' ')

/-- Per-emotion body of `normalizeLexiconKeys` (main.js lines 209-232):
multi-word keys pass through by plain assignment; single-word keys are
inserted under both the lower-cased form and its stemmed form, keeping the
maximum on collision. -/
def normEntriesGo (out : List (Str × ℚ)) : List (Str × ℚ) → List (Str × ℚ)
  | [] => out
  | e :: rest =>
    if hasSpace e.1 then normEntriesGo (updAssoc out e.1 e.2) rest
    else
      normEntriesGo
        (insMax (insMax out (jsLower e.1) e.2) (normalizeToken (jsLower e.1)) e.2)
        rest

/-- `normalizeLexiconKeys` restricted to one emotion's table. -/
def normEntries (entries : List (Str × ℚ)) : List (Str × ℚ) :=
  normEntriesGo [] entries

/-- `normalizeLexiconKeys`: normalize each emotion's table. -/
def normalizeLexiconKeys (lex : Lexicon) : Lexicon :=
  ⟨normEntries lex.anger, normEntries lex.joy, normEntries lex.sad⟩

/-- `key.split(" ")` — JS split on every single space, keeping empty
pieces. -/
def splitSpace : Str → List Str
  | [] => [[]]
  | c :: rest =>
    if c = ' ' then [] :: splitSpace rest
    else
      match splitSpace rest with
      | t :: ts => (c :: t) :: ts
      | [] => [[c]]

/-- `parts.join(" ")`. -/
def joinSpace : List Str → Str
  | [] => []
  | [x] => x
  | x :: y :: ys => x ++ (' ' :: joinSpace (y :: ys))

/-- A multi-word lexicon entry: `{ phrase, emotion, weight }`. -/
structure PhraseEntry where
  phrase : Str
  emotion : Emotion
  weight : ℚ
deriving DecidableEq, Repr

/-- Number of words of a phrase, as `p.phrase.split(" ").length`. -/
def phraseLen (p : PhraseEntry) : Nat := (splitSpace p.phrase).length

/-- Stable insertion keeping longer phrases first: an element moves left
past exactly the strictly shorter ones, which is what the (stable) JS
`sort((a, b) => b.len - a.len)` produces. -/
def insertPhrase (x : PhraseEntry) : List PhraseEntry → List PhraseEntry
  | [] => [x]
  | y :: ys => if phraseLen y < phraseLen x then x :: y :: ys else y :: insertPhrase x ys

/-- Sort phrases by descending word count, ties in discovery order. -/
def sortPhrases (l : List PhraseEntry) : List PhraseEntry :=
  l.foldl (fun acc x => insertPhrase x acc) []

/-- `extractPhrases` (main.js lines 376-401): collect every multi-word key
of every emotion (anger, joy, sad order), normalize each constituent word,
and sort longest-first. -/
def extractPhrases (lexicon : Lexicon) : List PhraseEntry :=
  sortPhrases
    (emotionOrder.foldl
      (fun acc e =>
        (lexicon.table e).foldl
          (fun acc2 kv =>
            if hasSpace kv.1 then
              acc2 ++ [⟨joinSpace ((splitSpace kv.1).map normalizeToken), e, kv.2⟩]
            else acc2)
          acc)
      [])

/-- The fixed negation word set (main.js line 276). -/
def NEGATIONS : List Str :=
  [str "not", str "no", str "never", str "dont", str "can't", str "cant",
   str "won't", str "wont", str "didn't", str "didnt", str "isn't",
   str "isnt", str "aren't", str "arent"]

/-- The fixed intensifier table (main.js lines 279-287). -/
def INTENSIFIERS : List (Str × ℚ) :=
  [(str "very", 1.6), (str "really", 1.4), (str "so", 1.3),
   (str "extremely", 2.0), (str "super", 1.6), (str "incredibly", 2.0),
   (str "insanely", 2.0)]

/-- The fixed diminisher table (main.js lines 290-306), multi-word entries
included. -/
def DIMINISHERS : List (Str × ℚ) :=
  [(str "kinda", 0.55), (str "kindof", 0.55), (str "sorta", 0.60),
   (str "somewhat", 0.65), (str "slightly", 0.60), (str "little", 0.50),
   (str "a", 1.0), (str "a little", 0.50), (str "a bit", 0.55),
   (str "a little bit", 0.45), (str "kind of", 0.55), (str "sort of", 0.60),
   (str "not that", 0.60), (str "a touch", 0.55), (str "a tad", 0.55)]

/-- Whitespace removed by JS `String.prototype.trim` (the subset that can
occur in this model). -/
def isJsWS (c : Char) : Bool :=
  decide (c = ' ') || decide (c = '\t') || decide (c = '\n') ||
  decide (c = '\r') || decide (c = '\x0b') || decide (c = '\x0c')

/-- Right trim: drop trailing whitespace. -/
def trimRight (l : Str) : Str := (l.reverse.dropWhile isJsWS).reverse

/-- JS `s.trim()`. -/
def jsTrim (l : Str) : Str := (trimRight l).dropWhile isJsWS

/-- `getPostDiminisher` (main.js lines 404-421): look ahead up to four
tokens, testing the 4-, 3-, 2-, then 1-word window against the diminisher
table; default 1.0. -/
def getPostDiminisher (words : List Str) (i : Nat) : ℚ :=
  let next := words.getD (i + 1) []
  let next2 := words.getD (i + 2) []
  let next3 := words.getD (i + 3) []
  let next4 := words.getD (i + 4) []
  let after2 := jsTrim (next ++ (' ' :: next2))
  let after3 := jsTrim (next ++ (' ' :: (next2 ++ (' ' :: next3))))
  let after4 := jsTrim (next ++ (' ' :: (next2 ++ (' ' :: (next3 ++ (' ' :: next4))))))
  (((lookupTab DIMINISHERS after4).orElse fun _ =>
    (lookupTab DIMINISHERS after3).orElse fun _ =>
      (lookupTab DIMINISHERS after2).orElse fun _ =>
        lookupTab DIMINISHERS next).getD 1)

/-- `words.findIndex(pred)`, as an `Option Nat` (-1 becomes `none`). -/
def findIdxO {α : Type} (p : α → Bool) : List α → Option Nat
  | [] => none
  | a :: l => if p a then some 0 else (findIdxO p l).map (· + 1)

/-- `w === "but" || w === "however" || w === "though"`. -/
def isContrastWord (w : Str) : Bool :=
  decide (w = str "but") || decide (w = str "however") || decide (w = str "though")

/-- The multiplier the source applies at match index `i`:
`if (contrastIdx !== -1 && i > contrastIdx) w *= 1.6` (a factor of 1
when the condition fails). -/
def contrastFactor (contrastIdx : Option Nat) (i : Nat) : ℚ :=
  match contrastIdx with
  | some c => if c < i then 1.6 else 1
  | none => 1

/-- The shared contribution computation of `scoreTextWithContext` (both the
phrase path, lines 476-491, and the word path, lines 504-514): a two-token
look-back into the original token sequence for negation, intensity and
softening, then the contrast boost, then negation flipping by -0.8.
The diminisher table and the contrast boost are parameters so that variant
semantics can be compared; the scorer instantiates them with `DIMINISHERS`
and `contrastFactor` of the first contrast-marker index. -/
def contribFactor (words : List Str) (dims : List (Str × ℚ)) (boost : Nat → ℚ)
    (i : Nat) (base : ℚ) : ℚ :=
  let prev := if 1 ≤ i then words.getD (i - 1) [] else []
  let prev2 := if 2 ≤ i then words.getD (i - 2) [] else []
  let isNegated := NEGATIONS.contains prev || NEGATIONS.contains prev2
  let intensity := ((lookupTab INTENSIFIERS prev).orElse fun _ =>
    lookupTab INTENSIFIERS prev2).getD 1
  let soften := ((lookupTab dims prev).orElse fun _ => lookupTab dims prev2).getD 1
  let w := base * intensity * soften
  let w := w * boost i
  if isNegated then w * (-0.8) else w

/-- The mutable state of the scanning loop: the consumed-token markers, the
three running emotion totals, and the hit count. -/
structure ScanState where
  used : List Bool
  anger : ℚ
  joy : ℚ
  sad : ℚ
  hits : Nat
deriving DecidableEq, Repr

/-- `scores[emotion] += w; hits += 1`. -/
def applyMatch (e : Emotion) (w : ℚ) (st : ScanState) : ScanState :=
  match e with
  | Emotion.anger => { st with anger := st.anger + w, hits := st.hits + 1 }
  | Emotion.joy => { st with joy := st.joy + w, hits := st.hits + 1 }
  | Emotion.sad => { st with sad := st.sad + w, hits := st.hits + 1 }

/-- Exact sequential phrase match at index `i`: every part equals the word
at its offset (`words[i + k] !== parts[k]` fails on out-of-range, since
`undefined` never equals a string). -/
def phraseMatchAt (words parts : List Str) (i : Nat) : Bool :=
  (List.range parts.length).all fun k => decide (words.get? (i + k) = parts.get? k)

/-- `for (const p of phrases) ... break` — the first phrase whose parts
match at `i`. -/
def findPhrase (words : List Str) (i : Nat) : List PhraseEntry → Option PhraseEntry
  | [] => none
  | p :: rest =>
    if phraseMatchAt words (splitSpace p.phrase) i then some p
    else findPhrase words i rest

/-- One iteration of the scanning loop of `scoreTextWithContext`
(main.js lines 449-520) at index `i`: skip consumed indices, try a phrase
match first (consuming its word positions), else try the current word
against each emotion table. -/
def scanStep (words : List Str) (lex : Lexicon) (phrases : List PhraseEntry)
    (dims : List (Str × ℚ)) (boost : Nat → ℚ) (st : ScanState) (i : Nat) : ScanState :=
  if st.used.getD i false then st
  else
    match findPhrase words i phrases with
    | some p =>
      let len := (splitSpace p.phrase).length
      let u := (List.range len).foldl (fun acc k => acc.set (i + k) true) st.used
      applyMatch p.emotion (contribFactor words dims boost i p.weight) { st with used := u }
    | none =>
      let word := words.getD i []
      emotionOrder.foldl
        (fun acc e =>
          match lookupTab (lex.table e) word with
          | some wt => applyMatch e (contribFactor words dims boost i wt) acc
          | none => acc)
        st

/-- The whole scanning loop, indices 0 to `words.length - 1`, starting from
an all-unconsumed, all-zero state. -/
def scoreCore (words : List Str) (lex : Lexicon) (phrases : List PhraseEntry)
    (dims : List (Str × ℚ)) (boost : Nat → ℚ) : ScanState :=
  (List.range words.length).foldl (scanStep words lex phrases dims boost)
    ⟨List.replicate words.length false, 0, 0, 0, 0⟩

/-- `{anger, joy, sad, hits, totalWords}`. -/
structure ScoreResult where
  anger : ℚ
  joy : ℚ
  sad : ℚ
  hits : Nat
  totalWords : Nat
deriving DecidableEq, Repr

/-- Package a final loop state as the returned score object. -/
def mkResult (words : List Str) (st : ScanState) : ScoreResult :=
  ⟨st.anger, st.joy, st.sad, st.hits, words.length⟩

/-- `scoreTextWithContext` (main.js lines 430-523). -/
def scoreTextWithContext (text : Str) (lexicon : Option Lexicon)
    (phrases : List PhraseEntry) : ScoreResult :=
  let words := tokenize text
  let totalWords := words.length
  match lexicon with
  | none => ⟨0, 0, 0, 0, totalWords⟩
  | some lex =>
    if totalWords = 0 then ⟨0, 0, 0, 0, totalWords⟩
    else
      mkResult words
        (scoreCore words lex phrases DIMINISHERS
          (contrastFactor (findIdxO isContrastWord words)))

/-!  Spec-side definitions, used to state the claims against the embedding. -/

/-- Spec reading of the contrast rule: a match at index `i` is boosted by
1.6 exactly when some strictly earlier token is a contrast marker, i.e.
exactly when `i` lies strictly after the first marker occurrence. -/
def boostSpecContrast (words : List Str) (i : Nat) : ℚ :=
  if (words.take i).any isContrastWord then 1.6 else 1

/-- The `k`-word window of tokens following position `i`, space-joined. -/
def windowAfter (words : List Str) (i k : Nat) : Str :=
  joinSpace ((words.drop (i + 1)).take k)

/-- Spec reading of `getPostDiminisher`: test the 4-, 3-, 2-, then 1-word
window of the tokens following position `i` against the diminisher table
and return the first match's factor, else 1.0. -/
def postDiminisherWindows (words : List Str) (i : Nat) : ℚ :=
  (((lookupTab DIMINISHERS (windowAfter words i 4)).orElse fun _ =>
    (lookupTab DIMINISHERS (windowAfter words i 3)).orElse fun _ =>
      (lookupTab DIMINISHERS (windowAfter words i 2)).orElse fun _ =>
        lookupTab DIMINISHERS (windowAfter words i 1)).getD 1)

/-- A well-formed token: nonempty and free of whitespace characters (every
token the tokenizer produces satisfies this). -/
def wfTok (w : Str) : Prop := w ≠ [] ∧ ∀ c ∈ w, isJsWS c = false

/-- The diminisher table restricted to its single-word entries. -/
def dimSinglesOnly : List (Str × ℚ) := DIMINISHERS.filter fun e => !hasSpace e.1

/-- The scorer with the multi-word diminisher entries removed from the
look-back table — extensionally, "multi-word diminishers never affect an
emotion total" says the scorer equals this variant. -/
def scoreTextSingleDim (text : Str) (lexicon : Option Lexicon)
    (phrases : List PhraseEntry) : ScoreResult :=
  let words := tokenize text
  let totalWords := words.length
  match lexicon with
  | none => ⟨0, 0, 0, 0, totalWords⟩
  | some lex =>
    if totalWords = 0 then ⟨0, 0, 0, 0, totalWords⟩
    else
      mkResult words
        (scoreCore words lex phrases dimSinglesOnly
          (contrastFactor (findIdxO isContrastWord words)))

/-- Scan step with the contribution handed in as a function of the match
index and base weight only — manifestly independent of the consumed-marker
state. -/
def scanStepCtx (words : List Str) (lex : Lexicon) (phrases : List PhraseEntry)
    (ctx : Nat → ℚ → ℚ) (st : ScanState) (i : Nat) : ScanState :=
  if st.used.getD i false then st
  else
    match findPhrase words i phrases with
    | some p =>
      let len := (splitSpace p.phrase).length
      let u := (List.range len).foldl (fun acc k => acc.set (i + k) true) st.used
      applyMatch p.emotion (ctx i p.weight) { st with used := u }
    | none =>
      let word := words.getD i []
      emotionOrder.foldl
        (fun acc e =>
          match lookupTab (lex.table e) word with
          | some wt => applyMatch e (ctx i wt) acc
          | none => acc)
        st

/-- The scorer rephrased so that the modifier context of a match is a pure
function of the original token sequence and the match index, fixed before
the scan begins — the consumed-marker state can only decide *whether* an
index is scored, never *how*. -/
def scoreModifiersUnmasked (text : Str) (lexicon : Option Lexicon)
    (phrases : List PhraseEntry) : ScoreResult :=
  let words := tokenize text
  let totalWords := words.length
  match lexicon with
  | none => ⟨0, 0, 0, 0, totalWords⟩
  | some lex =>
    if totalWords = 0 then ⟨0, 0, 0, 0, totalWords⟩
    else
      mkResult words
        ((List.range words.length).foldl
          (scanStepCtx words lex phrases
            (contribFactor words DIMINISHERS
              (contrastFactor (findIdxO isContrastWord words))))
          ⟨List.replicate words.length false, 0, 0, 0, 0⟩)

/-- Hypothetical alternative look-back that treats tokens already consumed
by a phrase match as absent (`""`) when reading modifier context; the code
does NOT do this. -/
def contribFactorMasked (words : List Str) (used : List Bool)
    (dims : List (Str × ℚ)) (boost : Nat → ℚ) (i : Nat) (base : ℚ) : ℚ :=
  let prev := if 1 ≤ i ∧ used.getD (i - 1) false = false then words.getD (i - 1) [] else []
  let prev2 := if 2 ≤ i ∧ used.getD (i - 2) false = false then words.getD (i - 2) [] else []
  let isNegated := NEGATIONS.contains prev || NEGATIONS.contains prev2
  let intensity := ((lookupTab INTENSIFIERS prev).orElse fun _ =>
    lookupTab INTENSIFIERS prev2).getD 1
  let soften := ((lookupTab dims prev).orElse fun _ => lookupTab dims prev2).getD 1
  let w := base * intensity * soften
  let w := w * boost i
  if isNegated then w * (-0.8) else w

/-- Scan step of the consumption-masked look-back variant. -/
def scanStepMasked (words : List Str) (lex : Lexicon) (phrases : List PhraseEntry)
    (dims : List (Str × ℚ)) (boost : Nat → ℚ) (st : ScanState) (i : Nat) : ScanState :=
  if st.used.getD i false then st
  else
    match findPhrase words i phrases with
    | some p =>
      let len := (splitSpace p.phrase).length
      let u := (List.range len).foldl (fun acc k => acc.set (i + k) true) st.used
      applyMatch p.emotion (contribFactorMasked words st.used dims boost i p.weight)
        { st with used := u }
    | none =>
      let word := words.getD i []
      emotionOrder.foldl
        (fun acc e =>
          match lookupTab (lex.table e) word with
          | some wt => applyMatch e (contribFactorMasked words st.used dims boost i wt) acc
          | none => acc)
        st

/-- The scorer under the consumption-masked look-back semantics. -/
def scoreLookbackMasked (text : Str) (lexicon : Option Lexicon)
    (phrases : List PhraseEntry) : ScoreResult :=
  let words := tokenize text
  let totalWords := words.length
  match lexicon with
  | none => ⟨0, 0, 0, 0, totalWords⟩
  | some lex =>
    if totalWords = 0 then ⟨0, 0, 0, 0, totalWords⟩
    else
      mkResult words
        ((List.range words.length).foldl
          (scanStepMasked words lex phrases DIMINISHERS
            (contrastFactor (findIdxO isContrastWord words)))
          ⟨List.replicate words.length false, 0, 0, 0, 0⟩)

/-- The weights an entry list sends (after normalization) to a given
single-word key: entry `(r, w)` contributes `w` to key `k` when `r` is
single-word and its lower-cased or stemmed form equals `k`. -/
def contribs (entries : List (Str × ℚ)) (k : Str) : List ℚ :=
  entries.filterMap fun e =>
    if hasSpace e.1 = false ∧ (jsLower e.1 = k ∨ normalizeToken (jsLower e.1) = k) then
      some e.2
    else none

/-- Fold of `Math.max(acc ?? 0, v)` over a contribution list. -/
def combineMax : Option ℚ → List ℚ → Option ℚ
  | o, [] => o
  | o, v :: vs => combineMax (some (max (o.getD 0) v)) vs

/-- The maximum of a list of weights, `none` when empty. -/
def maxListQ : List ℚ → Option ℚ
  | [] => none
  | v :: vs => some (vs.foldl max v)

/-!  Concrete instances used by individual claims. -/

/-- C2: a lexicon whose joy table holds the single-word entry "excite". -/
def lexC2 : Lexicon := normalizeLexiconKeys ⟨[], [(str "excite", 1)], []⟩

/-- C4: sad table `{"burned out": 2.0, "burned": 1.0}`, other tables
empty, normalized. -/
def lexC4 : Lexicon :=
  normalizeLexiconKeys ⟨[], [], [(str "burned out", 2), (str "burned", 1)]⟩

/-- C5: "happy" carries weight `w` under joy. -/
def lexC5 (w : ℚ) : Lexicon := ⟨[], [(str "happy", w)], []⟩

/-- C7: "angry" carries weight `w` under anger. -/
def lexC7 (w : ℚ) : Lexicon := ⟨[(str "angry", w)], [], []⟩

/-- C10: joy maps "happy", sad holds the phrase "not good" whose first
word is a negation word. -/
def lexC10 : Lexicon :=
  normalizeLexiconKeys ⟨[], [(str "happy", 1)], [(str "not good", 2)]⟩

/-- C9 witness entries: "happys" stems to "happy", colliding with the raw
key "happy"; the larger weight 3 must win. -/
def entriesC9 : List (Str × ℚ) := [(str "happy", 1), (str "happys", 3)]

/-!  Claim theorems. -/

/-- C1 (counterexample): with the lexicon absent and a nonempty text, the
returned `totalWords` is the token count (here 1), not 0 as claimed. -/
theorem c1_counterexample :
    (scoreTextWithContext (str "hello") none []).totalWords ≠ 0 := by decide

/-- C1 (amended): if the lexicon is absent or the token sequence is empty,
`score` returns all-zero emotion scores with `hits = 0` and `totalWords`
equal to the token count — which is 0 whenever the token sequence is empty,
in particular for empty or whitespace-only input. -/
theorem c1_absent_lexicon_or_no_tokens (text : Str) (phrases : List PhraseEntry)
    (lexicon : Option Lexicon) (h : lexicon = none ∨ tokenize text = []) :
    scoreTextWithContext text lexicon phrases = ⟨0, 0, 0, 0, (tokenize text).length⟩ := by
  rcases h with h | h
  · subst h; rfl
  · cases lexicon with
    | none => rfl
    | some lex => simp [scoreTextWithContext, h]

/-- C1 witness: a whitespace/punctuation-only text with a present lexicon
yields the all-zero result. -/
theorem c1_witness :
    scoreTextWithContext (str " .!? ") (some ⟨[], [], []⟩) [] = ⟨0, 0, 0, 0, 0⟩ :=
  (c1_absent_lexicon_or_no_tokens (str " .!? ") [] (some ⟨[], [], []⟩)
    (Or.inr (by decide))).trans (by decide)

/-- C2: the code stems "excited" to "excit" (only the "ed" rule fires), so
with the lexicon entry "excite" under joy, "I am EXCITED" scores joy 0
while "i am excite" scores joy 1 — the totals the claim (and the code's
own comment "excited -> excite") requires to be identical differ. -/
theorem c2_stem_divergence :
    normalizeToken (str "excited") = str "excit" ∧
    (scoreTextWithContext (str "I am EXCITED") (some lexC2) (extractPhrases lexC2)).joy = 0 ∧
    (scoreTextWithContext (str "i am excite") (some lexC2) (extractPhrases lexC2)).joy = 1 := by
  refine ⟨by decide, rfl, ?_⟩
  have h : (scoreTextWithContext (str "i am excite") (some lexC2) (extractPhrases lexC2)).joy
      = 0 + 1 * 1 * 1 * 1 := rfl
  rw [h]; norm_num

/-- C3 (counterexample): token normalization is not idempotent —
`normalizeToken "focused" = "focus"` but `normalizeToken "focus" = "focu"`
(a second application strips the plural rule). -/
theorem c3_counterexample :
    normalizeToken (normalizeToken (str "focused")) ≠ normalizeToken (str "focused") := by
  decide

/-- C3 (amended): normalization is idempotent exactly on the tokens it
already fixes: if `normalizeToken x = x` then a second application changes
nothing. In general a second application can strip a further suffix. -/
theorem c3_idempotent_on_fixed_points (x : Str) (h : normalizeToken x = x) :
    normalizeToken (normalizeToken x) = normalizeToken x := by
  rw [h, h]

/-- C3 witness: "calm" is fixed by normalization, so idempotence holds
there. -/
theorem c3_witness :
    normalizeToken (normalizeToken (str "calm")) = normalizeToken (str "calm") :=
  c3_idempotent_on_fixed_points (str "calm") (by decide)

/-- C4: with sad = {"burned out": 2.0, "burned": 1.0} and "out" unmapped,
"I feel burned out today" yields exactly one hit of weight 2.0 under sad —
the phrase match — with no standalone "burned" score, and both phrase word
positions (indices 2 and 3) are marked consumed. -/
theorem c4_phrase_precedence :
    (scoreTextWithContext (str "I feel burned out today") (some lexC4)
        (extractPhrases lexC4)).sad = 2 ∧
    (scoreTextWithContext (str "I feel burned out today") (some lexC4)
        (extractPhrases lexC4)).anger = 0 ∧
    (scoreTextWithContext (str "I feel burned out today") (some lexC4)
        (extractPhrases lexC4)).joy = 0 ∧
    (scoreTextWithContext (str "I feel burned out today") (some lexC4)
        (extractPhrases lexC4)).hits = 1 ∧
    (scoreTextWithContext (str "I feel burned out today") (some lexC4)
        (extractPhrases lexC4)).totalWords = 5 ∧
    (scoreCore (tokenize (str "I feel burned out today")) lexC4 (extractPhrases lexC4)
        DIMINISHERS
        (contrastFactor
          (findIdxO isContrastWord (tokenize (str "I feel burned out today"))))).used
      = [false, false, true, true, false] := by
  have h : (scoreTextWithContext (str "I feel burned out today") (some lexC4)
      (extractPhrases lexC4)).sad = 0 + 2 * 1 * 1 * 1 := rfl
  refine ⟨by rw [h]; norm_num, rfl, rfl, by decide, by decide, by decide⟩

/-- C5: with "happy" carrying positive weight `w` under joy, the joy total
of "I am not happy" is `-0.8 · w` — strictly negative and strictly below
the joy total `w` of "I am happy": negation flips rather than zeroes. -/
theorem c5_negation_inversion (w : ℚ) (hw : 0 < w) :
    (scoreTextWithContext (str "I am not happy") (some (lexC5 w)) []).joy < 0 ∧
    (scoreTextWithContext (str "I am not happy") (some (lexC5 w)) []).joy
      < (scoreTextWithContext (str "I am happy") (some (lexC5 w)) []).joy := by
  have h1 : (scoreTextWithContext (str "I am happy") (some (lexC5 w)) []).joy
      = 0 + w * 1 * 1 * 1 := rfl
  have h2 : (scoreTextWithContext (str "I am not happy") (some (lexC5 w)) []).joy
      = 0 + w * 1 * 1 * 1 * (-0.8) := rfl
  rw [h1, h2]
  constructor <;> nlinarith

/-- C5 witness: instantiated at weight 1. -/
theorem c5_witness :
    (scoreTextWithContext (str "I am not happy") (some (lexC5 1)) []).joy < 0 ∧
    (scoreTextWithContext (str "I am not happy") (some (lexC5 1)) []).joy
      < (scoreTextWithContext (str "I am happy") (some (lexC5 1)) []).joy :=
  c5_negation_inversion 1 (by norm_num)

/-- C7: with "angry" carrying weight `w` under anger, the anger total of
"very angry" is exactly the intensifier factor 1.6 times the anger total of
"angry" (exact in the rational model). -/
theorem c7_intensifier_scaling (w : ℚ) :
    (scoreTextWithContext (str "very angry") (some (lexC7 w)) []).anger
      = 1.6 * (scoreTextWithContext (str "angry") (some (lexC7 w)) []).anger := by
  have h1 : (scoreTextWithContext (str "very angry") (some (lexC7 w)) []).anger
      = 0 + w * 1.6 * 1 * 1 := rfl
  have h2 : (scoreTextWithContext (str "angry") (some (lexC7 w)) []).anger
      = 0 + w * 1 * 1 * 1 := rfl
  rw [h1, h2]; ring

/-- C10: the modifier look-back ignores consumption. The scorer equals the
reformulation whose per-match modifier context is a pure function of the
original token sequence fixed before the scan (`scoreModifiersUnmasked`);
concretely, in "not good happy" with phrase "not good" consuming indices 0
and 1, the consumed "not" at index 0 still negates "happy" at index 2
(joy total -0.8), whereas the hypothetical consumption-masked look-back
would score joy +1. -/
theorem c10_lookback_ignores_consumption :
    (∀ (text : Str) (lexicon : Option Lexicon) (phrases : List PhraseEntry),
      scoreTextWithContext text lexicon phrases
        = scoreModifiersUnmasked text lexicon phrases) ∧
    (scoreCore (tokenize (str "not good happy")) lexC10 (extractPhrases lexC10) DIMINISHERS
        (contrastFactor (findIdxO isContrastWord (tokenize (str "not good happy"))))).used
      = [true, true, false] ∧
    (scoreTextWithContext (str "not good happy") (some lexC10) (extractPhrases lexC10)).joy
      = -0.8 ∧
    (scoreTextWithContext (str "not good happy") (some lexC10) (extractPhrases lexC10)).sad
      = 2 ∧
    (scoreTextWithContext (str "not good happy") (some lexC10) (extractPhrases lexC10)).hits
      = 2 ∧
    (scoreLookbackMasked (str "not good happy") (some lexC10) (extractPhrases lexC10)).joy
      ≠ (scoreTextWithContext (str "not good happy") (some lexC10)
          (extractPhrases lexC10)).joy := by
  have hj : (scoreTextWithContext (str "not good happy") (some lexC10)
      (extractPhrases lexC10)).joy = 0 + 1 * 1 * 1 * 1 * (-0.8) := rfl
  have hs : (scoreTextWithContext (str "not good happy") (some lexC10)
      (extractPhrases lexC10)).sad = 0 + 2 * 1 * 1 * 1 := rfl
  have hm : (scoreLookbackMasked (str "not good happy") (some lexC10)
      (extractPhrases lexC10)).joy = 0 + 1 * 1 * 1 * 1 := rfl
  refine ⟨fun text lexicon phrases => rfl, by decide, by rw [hj]; norm_num,
    by rw [hs]; norm_num, by decide, by rw [hm, hj]; norm_num⟩

/-- The factor the code computes from `findIndex` equals the spec-side
"strictly after the first marker" factor: the match at `i` is boosted
exactly when a marker occurs among the strictly earlier tokens. -/
theorem contrastFactor_take (p : Str → Bool) (words : List Str) :
    ∀ i : Nat, contrastFactor (findIdxO p words) i
      = if (words.take i).any p then 1.6 else 1 := by
  induction words with
  | nil => intro i; simp [findIdxO, contrastFactor]
  | cons a l ih =>
    intro i
    cases i with
    | zero =>
      cases hpa : p a
      · simp only [findIdxO, hpa, Bool.false_eq_true, if_false]
        cases hfi : findIdxO p l <;> simp [contrastFactor]
      · simp [findIdxO, hpa, contrastFactor]
    | succ n =>
      cases hpa : p a
      · have hih := ih n
        simp only [findIdxO, hpa, Bool.false_eq_true, if_false, List.take_succ_cons,
          List.any_cons, Bool.false_or]
        cases hfi : findIdxO p l with
        | none => rw [hfi] at hih; simpa [contrastFactor] using hih
        | some c =>
          rw [hfi] at hih
          simp only [Option.map_some', contrastFactor] at hih ⊢
          simpa [Nat.succ_lt_succ_iff] using hih
      · simp [findIdxO, hpa, contrastFactor, List.take_succ_cons]

/-- C6: the contrast pivot is the first occurrence of "but"/"however"/
"though" in the normalized token sequence, and the scorer equals the
computation in which a match starting at index `i` is boosted by 1.6
exactly when `i` is strictly after that pivot (equivalently, when some
strictly earlier token is a marker), with no boost at or before the pivot
or when no pivot exists. -/
theorem c6_contrast_pivot (text : Str) (lex : Lexicon) (phrases : List PhraseEntry) :
    scoreTextWithContext text (some lex) phrases
      = mkResult (tokenize text)
          (scoreCore (tokenize text) lex phrases DIMINISHERS
            (boostSpecContrast (tokenize text))) := by
  have hb : contrastFactor (findIdxO isContrastWord (tokenize text))
      = boostSpecContrast (tokenize text) := by
    funext i
    rw [contrastFactor_take]
    rfl
  have hL : scoreTextWithContext text (some lex) phrases
      = if (tokenize text).length = 0 then ⟨0, 0, 0, 0, (tokenize text).length⟩
        else
          mkResult (tokenize text)
            (scoreCore (tokenize text) lex phrases DIMINISHERS
              (contrastFactor (findIdxO isContrastWord (tokenize text)))) := rfl
  rw [hL, hb]
  by_cases h : (tokenize text).length = 0
  · rw [if_pos h]
    obtain hw := List.length_eq_zero.mp h
    rw [hw]
    rfl
  · rw [if_neg h]

/-- `dropWhile` does nothing when the list starts with a non-whitespace
chunk. -/
theorem dropWhile_append_of_head (x r : Str) (hx : x ≠ [])
    (hx2 : ∀ c ∈ x, isJsWS c = false) :
    (x ++ r).dropWhile isJsWS = x ++ r := by
  cases x with
  | nil => exact absurd rfl hx
  | cons a t =>
    have ha : isJsWS a = false := hx2 a (List.mem_cons_self a t)
    simp [List.dropWhile_cons, ha]

/-- Leading spaces are dropped. -/
theorem dropWhile_replicate_space (k : Nat) (r : Str) :
    (List.replicate k ' ' ++ r).dropWhile isJsWS = r.dropWhile isJsWS := by
  induction k with
  | zero => rfl
  | succ n ih =>
    simp only [List.replicate_succ, List.cons_append, List.dropWhile_cons]
    norm_num [isJsWS, ih]

/-- Trailing spaces do not survive a right trim. -/
theorem trimRight_append_replicate (x : Str) (k : Nat) :
    trimRight (x ++ List.replicate k ' ') = trimRight x := by
  unfold trimRight
  rw [List.reverse_append, List.reverse_replicate, dropWhile_replicate_space]

/-- Trimming a nonempty whitespace-free-at-both-ends string is the
identity. -/
theorem jsTrim_no_ws_ends (x : Str) (h1 : x ≠ [])
    (hh : ∀ c ∈ x.take 1, isJsWS c = false)
    (hl : ∀ c ∈ x.reverse.take 1, isJsWS c = false) :
    jsTrim x = x := by
  obtain ⟨d, s, hds⟩ : ∃ d s, x.reverse = d :: s := by
    cases hx : x.reverse with
    | nil =>
      have : x = [] := by simpa using congrArg List.reverse hx
      exact absurd this h1
    | cons d s => exact ⟨d, s, rfl⟩
  have hd : isJsWS d = false := by
    apply hl
    rw [hds]
    simp
  have htr : trimRight x = x := by
    unfold trimRight
    rw [hds, List.dropWhile_cons, hd]
    simp only [Bool.false_eq_true, if_false]
    rw [← hds, List.reverse_reverse]
  obtain ⟨c0, t, hct⟩ : ∃ c0 t, x = c0 :: t := by
    cases x with
    | nil => exact absurd rfl h1
    | cons c0 t => exact ⟨c0, t, rfl⟩
  have hc : isJsWS c0 = false := by
    apply hh
    rw [hct]
    simp
  unfold jsTrim
  rw [htr, hct, List.dropWhile_cons, hc]
  simp

/-- Trimming such a string with trailing space padding recovers the
string. -/
theorem jsTrim_pad_ends (x : Str) (k : Nat) (h1 : x ≠ [])
    (hh : ∀ c ∈ x.take 1, isJsWS c = false)
    (hl : ∀ c ∈ x.reverse.take 1, isJsWS c = false) :
    jsTrim (x ++ List.replicate k ' ') = x := by
  unfold jsTrim
  rw [trimRight_append_replicate]
  exact jsTrim_no_ws_ends x h1 hh hl

/-- A spaces-only string trims to empty. -/
theorem jsTrim_replicate_space (k : Nat) : jsTrim (List.replicate k ' ') = [] := by
  have h : trimRight (List.replicate k ' ') = trimRight [] :=
    trimRight_append_replicate [] k
  unfold jsTrim
  rw [h]
  rfl

/-- Taking the head element ignores everything after a nonempty prefix. -/
theorem take_one_append (a r : Str) (ha : a ≠ []) : (a ++ r).take 1 = a.take 1 := by
  cases a with
  | nil => exact absurd rfl ha
  | cons c t => rfl

/-- Taking the last element ignores everything before a nonempty suffix. -/
theorem reverse_take_one_append (y c : Str) (hc : c ≠ []) :
    ((y ++ c).reverse).take 1 = c.reverse.take 1 := by
  rw [List.reverse_append]
  exact take_one_append c.reverse y.reverse (by simpa using hc)

/-- The head of `a ++ r` is not whitespace when the token `a` is
well-formed. -/
theorem wf_head_append (a r : Str) (ha : wfTok a) :
    ∀ c ∈ (a ++ r).take 1, isJsWS c = false := by
  rw [take_one_append a r ha.1]
  intro c hc
  exact ha.2 c (List.take_subset _ _ hc)

/-- The last element of `y ++ c` is not whitespace when the token `c` is
well-formed. -/
theorem wf_last_append (y c : Str) (hc : wfTok c) :
    ∀ x ∈ ((y ++ c).reverse).take 1, isJsWS x = false := by
  rw [reverse_take_one_append y c hc.1]
  intro x hx
  exact hc.2 x (List.mem_reverse.mp (List.take_subset _ _ hx))

/-- The head of a well-formed token is not whitespace. -/
theorem wf_head (a : Str) (ha : wfTok a) : ∀ c ∈ a.take 1, isJsWS c = false :=
  fun c hc => ha.2 c (List.take_subset _ _ hc)

/-- The last element of a well-formed token is not whitespace. -/
theorem wf_last (a : Str) (ha : wfTok a) : ∀ c ∈ a.reverse.take 1, isJsWS c = false :=
  fun c hc => ha.2 c (List.mem_reverse.mp (List.take_subset _ _ hc))

/-- `getD` after `drop` reads the shifted index. -/
theorem getD_drop (l : List Str) (n : Nat) :
    ∀ k : Nat, (l.drop n).getD k [] = l.getD (n + k) [] := by
  induction n generalizing l with
  | zero => intro k; simp
  | succ m ih =>
    intro k
    cases l with
    | nil => rfl
    | cons a t =>
      rw [List.drop_succ_cons, ih t k]
      rw [show m + 1 + k = (m + k) + 1 from by omega]
      rfl

/-- `getD` on `[]` yields the default. -/
theorem getD_nil_str (n : Nat) : (([] : List Str)).getD n ([] : Str) = [] := rfl

/-- Right-associated variant of `wf_last_append`. -/
theorem wf_last_cons_append (a m c : Str) (hc : wfTok c) :
    ∀ x ∈ ((a ++ (m ++ c)).reverse).take 1, isJsWS x = false := by
  rw [show a ++ (m ++ c) = (a ++ m) ++ c from (List.append_assoc a m c).symm]
  exact wf_last_append (a ++ m) c hc

/-- On well-formed token sequences, `getPostDiminisher` computes exactly
the first diminisher hit among the 4-, 3-, 2-, 1-word windows of the
tokens following position `i`. -/
theorem getPostDiminisher_windows (words : List Str) (i : Nat)
    (hwf : ∀ w ∈ words, wfTok w) :
    getPostDiminisher words i = postDiminisherWindows words i := by
  have h1 : words.getD (i + 1) [] = (words.drop (i + 1)).getD 0 [] := by
    rw [getD_drop]
  have h2 : words.getD (i + 2) [] = (words.drop (i + 1)).getD 1 [] := by
    rw [getD_drop, show i + 1 + 1 = i + 2 from by omega]
  have h3 : words.getD (i + 3) [] = (words.drop (i + 1)).getD 2 [] := by
    rw [getD_drop, show i + 1 + 2 = i + 3 from by omega]
  have h4 : words.getD (i + 4) [] = (words.drop (i + 1)).getD 3 [] := by
    rw [getD_drop, show i + 1 + 3 = i + 4 from by omega]
  have hrest : ∀ w ∈ words.drop (i + 1), wfTok w :=
    fun w hw => hwf w (List.drop_subset _ _ hw)
  simp only [getPostDiminisher, postDiminisherWindows, windowAfter]
  rw [h1, h2, h3, h4]
  rcases hD : words.drop (i + 1) with _ | ⟨a, _ | ⟨b, _ | ⟨c, _ | ⟨d, t⟩⟩⟩⟩ <;>
    rw [hD] at hrest <;>
    simp only [getD_nil_str, List.getD_cons_zero, List.getD_cons_succ,
      List.nil_append, List.take_nil, List.take_succ_cons, List.take_zero,
      joinSpace]
  · -- no following tokens: every window is spaces-only / empty
    have e1 : jsTrim [' '] = [] := jsTrim_replicate_space 1
    have e2 : jsTrim [' ', ' '] = [] := jsTrim_replicate_space 2
    have e3 : jsTrim [' ', ' ', ' '] = [] := jsTrim_replicate_space 3
    rw [e1, e2, e3]
  · -- one following token
    have ha : wfTok a := hrest a (by simp)
    have e1 : jsTrim (a ++ [' ']) = a :=
      jsTrim_pad_ends a 1 ha.1 (wf_head a ha) (wf_last a ha)
    have e2 : jsTrim (a ++ [' ', ' ']) = a :=
      jsTrim_pad_ends a 2 ha.1 (wf_head a ha) (wf_last a ha)
    have e3 : jsTrim (a ++ [' ', ' ', ' ']) = a :=
      jsTrim_pad_ends a 3 ha.1 (wf_head a ha) (wf_last a ha)
    rw [e1, e2, e3]
  · -- two following tokens
    have ha : wfTok a := hrest a (by simp)
    have hb : wfTok b := hrest b (by simp)
    have e1 : jsTrim (a ++ (' ' :: b)) = a ++ (' ' :: b) :=
      jsTrim_no_ws_ends _ (by simp [ha.1]) (wf_head_append a _ ha)
        (wf_last_cons_append a [' '] b hb)
    have q2 : a ++ (' ' :: (b ++ [' '])) = (a ++ (' ' :: b)) ++ List.replicate 1 ' ' := by
      simp
    have q3 : a ++ (' ' :: (b ++ [' ', ' '])) = (a ++ (' ' :: b)) ++ List.replicate 2 ' ' := by
      simp
    have e2 : jsTrim (a ++ (' ' :: (b ++ [' ']))) = a ++ (' ' :: b) := by
      rw [q2]
      exact jsTrim_pad_ends _ 1 (by simp [ha.1]) (wf_head_append a _ ha)
        (wf_last_cons_append a [' '] b hb)
    have e3 : jsTrim (a ++ (' ' :: (b ++ [' ', ' ']))) = a ++ (' ' :: b) := by
      rw [q3]
      exact jsTrim_pad_ends _ 2 (by simp [ha.1]) (wf_head_append a _ ha)
        (wf_last_cons_append a [' '] b hb)
    rw [e1, e2, e3]
  · -- three following tokens
    have ha : wfTok a := hrest a (by simp)
    have hb : wfTok b := hrest b (by simp)
    have hc : wfTok c := hrest c (by simp)
    have e1 : jsTrim (a ++ (' ' :: b)) = a ++ (' ' :: b) :=
      jsTrim_no_ws_ends _ (by simp [ha.1]) (wf_head_append a _ ha)
        (wf_last_cons_append a [' '] b hb)
    have e2 : jsTrim (a ++ (' ' :: (b ++ (' ' :: c)))) = a ++ (' ' :: (b ++ (' ' :: c))) := by
      have hsh : a ++ (' ' :: (b ++ (' ' :: c))) = (a ++ (' ' :: (b ++ [' ']))) ++ c := by
        simp
      refine jsTrim_no_ws_ends _ (by simp [ha.1]) (wf_head_append a _ ha) ?_
      rw [hsh]
      exact wf_last_append _ c hc
    have q3 : a ++ (' ' :: (b ++ (' ' :: (c ++ [' '])))) =
        (a ++ (' ' :: (b ++ (' ' :: c)))) ++ List.replicate 1 ' ' := by
      simp
    have e3 : jsTrim (a ++ (' ' :: (b ++ (' ' :: (c ++ [' ']))))) =
        a ++ (' ' :: (b ++ (' ' :: c))) := by
      rw [q3]
      have hsh : a ++ (' ' :: (b ++ (' ' :: c))) = (a ++ (' ' :: (b ++ [' ']))) ++ c := by
        simp
      refine jsTrim_pad_ends _ 1 (by simp [ha.1]) (wf_head_append a _ ha) ?_
      rw [hsh]
      exact wf_last_append _ c hc
    rw [e1, e2, e3]
  · -- at least four following tokens
    have ha : wfTok a := hrest a (by simp)
    have hb : wfTok b := hrest b (by simp)
    have hc : wfTok c := hrest c (by simp)
    have hd : wfTok d := hrest d (by simp)
    have e1 : jsTrim (a ++ (' ' :: b)) = a ++ (' ' :: b) :=
      jsTrim_no_ws_ends _ (by simp [ha.1]) (wf_head_append a _ ha)
        (wf_last_cons_append a [' '] b hb)
    have e2 : jsTrim (a ++ (' ' :: (b ++ (' ' :: c)))) = a ++ (' ' :: (b ++ (' ' :: c))) := by
      have hsh : a ++ (' ' :: (b ++ (' ' :: c))) = (a ++ (' ' :: (b ++ [' ']))) ++ c := by
        simp
      refine jsTrim_no_ws_ends _ (by simp [ha.1]) (wf_head_append a _ ha) ?_
      rw [hsh]
      exact wf_last_append _ c hc
    have e3 : jsTrim (a ++ (' ' :: (b ++ (' ' :: (c ++ (' ' :: d)))))) =
        a ++ (' ' :: (b ++ (' ' :: (c ++ (' ' :: d))))) := by
      have hsh : a ++ (' ' :: (b ++ (' ' :: (c ++ (' ' :: d))))) =
          (a ++ (' ' :: (b ++ (' ' :: (c ++ [' ']))))) ++ d := by
        simp
      refine jsTrim_no_ws_ends _ (by simp [ha.1]) (wf_head_append a _ ha) ?_
      rw [hsh]
      exact wf_last_append _ d hd
    rw [e1, e2, e3]

/-- `getD` inherits any property shared by the list elements and the
default. -/
theorem getD_prop (P : Str → Prop) (l : List Str) (hl : ∀ x ∈ l, P x) (hd : P []) :
    ∀ j : Nat, P (l.getD j []) := by
  induction l with
  | nil => intro j; exact hd
  | cons a t ih =>
    intro j
    cases j with
    | zero => exact hl a (List.mem_cons_self a t)
    | succ n =>
      exact ih (fun x hx => hl x (List.mem_cons_of_mem a hx)) n

/-- Multi-word diminisher entries can never match a space-free key, so
dropping them from the table does not change any lookup at such a key. -/
theorem lookupTab_filter_not_hasSpace (tab : List (Str × ℚ)) (k : Str)
    (hk : hasSpace k = false) :
    lookupTab (tab.filter fun e => !hasSpace e.1) k = lookupTab tab k := by
  induction tab with
  | nil => rfl
  | cons e t ih =>
    by_cases he : e.1 = k
    · have hs : hasSpace e.1 = false := by rw [he]; exact hk
      simp [List.filter_cons, hs, lookupTab, he, hk]
    · cases hs : hasSpace e.1 <;> simp [List.filter_cons, hs, lookupTab, he, ih]

/-- Every run produced by the tokenizer's regex scan consists of word
characters. -/
theorem splitRunsGo_wordChar (l : Str) :
    ∀ (acc : Str), (∀ c ∈ acc, isWordChar c = true) →
      ∀ r ∈ splitRunsGo l acc, ∀ c ∈ r, isWordChar c = true := by
  induction l with
  | nil =>
    intro acc hacc r hr c hc
    by_cases h : acc = []
    · simp [splitRunsGo, h] at hr
    · simp only [splitRunsGo, h, if_false, List.mem_singleton] at hr
      subst hr
      exact hacc c (List.mem_reverse.mp hc)
  | cons a t ih =>
    intro acc hacc r hr c hc
    by_cases hw : isWordChar a = true
    · rw [show splitRunsGo (a :: t) acc = splitRunsGo t (a :: acc) from by
        simp [splitRunsGo, hw]] at hr
      refine ih (a :: acc) ?_ r hr c hc
      intro c' hc'
      rcases List.mem_cons.mp hc' with h1 | h1
      · rw [h1]; exact hw
      · exact hacc c' h1
    · by_cases hacc0 : acc = []
      · rw [show splitRunsGo (a :: t) acc = splitRunsGo t [] from by
          simp [splitRunsGo, hw, hacc0]] at hr
        exact ih [] (by intro c' hc'; cases hc') r hr c hc
      · rw [show splitRunsGo (a :: t) acc = acc.reverse :: splitRunsGo t [] from by
          simp [splitRunsGo, hw, hacc0]] at hr
        rcases List.mem_cons.mp hr with h1 | h1
        · subst h1
          exact hacc c (List.mem_reverse.mp hc)
        · exact ih [] (by intro c' hc'; cases hc') r h1 c hc

/-- A word character is already lower-case, so ASCII folding fixes it. -/
theorem lowerChar_of_wordChar (c : Char) (h : isWordChar c = true) : lowerChar c = c := by
  have hA : c ≠ 'A' := by intro he; rw [he] at h; exact absurd h (by decide)
  have hB : c ≠ 'B' := by intro he; rw [he] at h; exact absurd h (by decide)
  have hC : c ≠ 'C' := by intro he; rw [he] at h; exact absurd h (by decide)
  have hD : c ≠ 'D' := by intro he; rw [he] at h; exact absurd h (by decide)
  have hE : c ≠ 'E' := by intro he; rw [he] at h; exact absurd h (by decide)
  have hF : c ≠ 'F' := by intro he; rw [he] at h; exact absurd h (by decide)
  have hG : c ≠ 'G' := by intro he; rw [he] at h; exact absurd h (by decide)
  have hH : c ≠ 'H' := by intro he; rw [he] at h; exact absurd h (by decide)
  have hI : c ≠ 'I' := by intro he; rw [he] at h; exact absurd h (by decide)
  have hJ : c ≠ 'J' := by intro he; rw [he] at h; exact absurd h (by decide)
  have hK : c ≠ 'K' := by intro he; rw [he] at h; exact absurd h (by decide)
  have hL : c ≠ 'L' := by intro he; rw [he] at h; exact absurd h (by decide)
  have hM : c ≠ 'M' := by intro he; rw [he] at h; exact absurd h (by decide)
  have hN : c ≠ 'N' := by intro he; rw [he] at h; exact absurd h (by decide)
  have hO : c ≠ 'O' := by intro he; rw [he] at h; exact absurd h (by decide)
  have hP : c ≠ 'P' := by intro he; rw [he] at h; exact absurd h (by decide)
  have hQ : c ≠ 'Q' := by intro he; rw [he] at h; exact absurd h (by decide)
  have hR : c ≠ 'R' := by intro he; rw [he] at h; exact absurd h (by decide)
  have hS : c ≠ 'S' := by intro he; rw [he] at h; exact absurd h (by decide)
  have hT : c ≠ 'T' := by intro he; rw [he] at h; exact absurd h (by decide)
  have hU : c ≠ 'U' := by intro he; rw [he] at h; exact absurd h (by decide)
  have hV : c ≠ 'V' := by intro he; rw [he] at h; exact absurd h (by decide)
  have hW : c ≠ 'W' := by intro he; rw [he] at h; exact absurd h (by decide)
  have hX : c ≠ 'X' := by intro he; rw [he] at h; exact absurd h (by decide)
  have hY : c ≠ 'Y' := by intro he; rw [he] at h; exact absurd h (by decide)
  have hZ : c ≠ 'Z' := by intro he; rw [he] at h; exact absurd h (by decide)
  unfold lowerChar
  rw [if_neg hA, if_neg hB, if_neg hC, if_neg hD, if_neg hE, if_neg hF, if_neg hG, if_neg hH, if_neg hI, if_neg hJ, if_neg hK, if_neg hL, if_neg hM, if_neg hN, if_neg hO, if_neg hP, if_neg hQ, if_neg hR, if_neg hS, if_neg hT, if_neg hU, if_neg hV, if_neg hW, if_neg hX, if_neg hY, if_neg hZ]

/-- ASCII folding never produces a space from a non-space. -/
theorem lowerChar_ne_space (c : Char) (h : c ≠ ' ') : lowerChar c ≠ ' ' := by
  by_cases hA : c = 'A'
  · rw [hA]; decide
  by_cases hB : c = 'B'
  · rw [hB]; decide
  by_cases hC : c = 'C'
  · rw [hC]; decide
  by_cases hD : c = 'D'
  · rw [hD]; decide
  by_cases hE : c = 'E'
  · rw [hE]; decide
  by_cases hF : c = 'F'
  · rw [hF]; decide
  by_cases hG : c = 'G'
  · rw [hG]; decide
  by_cases hH : c = 'H'
  · rw [hH]; decide
  by_cases hI : c = 'I'
  · rw [hI]; decide
  by_cases hJ : c = 'J'
  · rw [hJ]; decide
  by_cases hK : c = 'K'
  · rw [hK]; decide
  by_cases hL : c = 'L'
  · rw [hL]; decide
  by_cases hM : c = 'M'
  · rw [hM]; decide
  by_cases hN : c = 'N'
  · rw [hN]; decide
  by_cases hO : c = 'O'
  · rw [hO]; decide
  by_cases hP : c = 'P'
  · rw [hP]; decide
  by_cases hQ : c = 'Q'
  · rw [hQ]; decide
  by_cases hR : c = 'R'
  · rw [hR]; decide
  by_cases hS : c = 'S'
  · rw [hS]; decide
  by_cases hT : c = 'T'
  · rw [hT]; decide
  by_cases hU : c = 'U'
  · rw [hU]; decide
  by_cases hV : c = 'V'
  · rw [hV]; decide
  by_cases hW : c = 'W'
  · rw [hW]; decide
  by_cases hX : c = 'X'
  · rw [hX]; decide
  by_cases hY : c = 'Y'
  · rw [hY]; decide
  by_cases hZ : c = 'Z'
  · rw [hZ]; decide
  unfold lowerChar
  rw [if_neg hA, if_neg hB, if_neg hC, if_neg hD, if_neg hE, if_neg hF, if_neg hG, if_neg hH, if_neg hI, if_neg hJ, if_neg hK, if_neg hL, if_neg hM, if_neg hN, if_neg hO, if_neg hP, if_neg hQ, if_neg hR, if_neg hS, if_neg hT, if_neg hU, if_neg hV, if_neg hW, if_neg hX, if_neg hY, if_neg hZ]
  exact h

/-- Character-predicate preservation through `jsLower`. -/
theorem pres_jsLower (P : Char → Bool)
    (hlow : ∀ c, P c = true → P (lowerChar c) = true) (l : Str)
    (hl : ∀ c ∈ l, P c = true) : ∀ c ∈ jsLower l, P c = true := by
  intro c hc
  rcases List.mem_map.mp hc with ⟨a, ha, rfl⟩
  exact hlow a (hl a ha)

/-- Character-predicate preservation through the apostrophe fix. -/
theorem pres_replaceFirstCurly (P : Char → Bool) (hap : P '\'' = true) (l : Str)
    (hl : ∀ c ∈ l, P c = true) : ∀ c ∈ replaceFirstCurly l, P c = true := by
  induction l with
  | nil => intro c hc; cases hc
  | cons a t ih =>
    intro c hc
    unfold replaceFirstCurly at hc
    by_cases ha : a = '’'
    · rw [if_pos ha] at hc
      rcases List.mem_cons.mp hc with h1 | h1
      · rw [h1]; exact hap
      · exact hl c (List.mem_cons_of_mem a h1)
    · rw [if_neg ha] at hc
      rcases List.mem_cons.mp hc with h1 | h1
      · rw [h1]; exact hl a (List.mem_cons_self a t)
      · exact ih (fun c' hc' => hl c' (List.mem_cons_of_mem a hc')) c h1

/-- Character-predicate preservation through one contraction rule. -/
theorem pres_canon (P : Char → Bool) (pa pb out w : Str)
    (hout : ∀ c ∈ out, P c = true) (hw : ∀ c ∈ w, P c = true) :
    ∀ c ∈ canon pa pb out w, P c = true := by
  unfold canon
  split
  · exact hout
  · exact hw

/-- Character-predicate preservation through the contraction table, for
predicates that hold on all lower-case letters. -/
theorem pres_canonContractions (P : Char → Bool)
    (haz : ∀ c : Char, 'a' ≤ c → c ≤ 'z' → P c = true) (w : Str)
    (hw : ∀ c ∈ w, P c = true) : ∀ c ∈ canonContractions w, P c = true := by
  have haz' : ∀ (u : Str), (∀ c ∈ u, 'a' ≤ c ∧ c ≤ 'z') → ∀ c ∈ u, P c = true :=
    fun u h c hc => haz c (h c hc).1 (h c hc).2
  unfold canonContractions
  apply pres_canon P _ _ _ _ (haz' _ (by decide))
  apply pres_canon P _ _ _ _ (haz' _ (by decide))
  apply pres_canon P _ _ _ _ (haz' _ (by decide))
  apply pres_canon P _ _ _ _ (haz' _ (by decide))
  apply pres_canon P _ _ _ _ (haz' _ (by decide))
  apply pres_canon P _ _ _ _ (haz' _ (by decide))
  apply pres_canon P _ _ _ _ (haz' _ (by decide))
  exact hw

/-- Character-predicate preservation through a `take`. -/
theorem pres_take (P : Char → Bool) (w : Str) (n : Nat)
    (hw : ∀ c ∈ w, P c = true) : ∀ c ∈ w.take n, P c = true :=
  fun c hc => hw c (List.take_subset n w hc)

/-- Character-predicate preservation through the suffix-stripping
cascade. -/
theorem pres_stripRules (P : Char → Bool) (w : Str)
    (hw : ∀ c ∈ w, P c = true) : ∀ c ∈ stripRules w, P c = true := by
  have hS : ∀ (u : Str), (∀ c ∈ u, P c = true) → ∀ c ∈ ruleS u, P c = true := by
    intro u hu; unfold ruleS; split
    · exact pres_take P u _ hu
    · exact hu
  have hLy : ∀ (u : Str), (∀ c ∈ u, P c = true) → ∀ c ∈ ruleLy u, P c = true := by
    intro u hu; unfold ruleLy; split
    · exact pres_take P u _ hu
    · exact hu
  have hNess : ∀ (u : Str), (∀ c ∈ u, P c = true) → ∀ c ∈ ruleNess u, P c = true := by
    intro u hu; unfold ruleNess; split
    · exact pres_take P u _ hu
    · exact hu
  have hIng : ∀ (u : Str), (∀ c ∈ u, P c = true) → ∀ c ∈ ruleIng u, P c = true := by
    intro u hu; unfold ruleIng; split
    · exact pres_take P u _ hu
    · exact hu
  have hEd : ∀ (u : Str), (∀ c ∈ u, P c = true) → ∀ c ∈ ruleEd u, P c = true := by
    intro u hu; unfold ruleEd; split
    · exact pres_take P u _ hu
    · exact hu
  have hEstEr : ∀ (u : Str), (∀ c ∈ u, P c = true) → ∀ c ∈ ruleEstEr u, P c = true := by
    intro u hu; unfold ruleEstEr; split
    · exact pres_take P u _ hu
    · split
      · exact pres_take P u _ hu
      · exact hu
  exact hEstEr _ (hEd _ (hIng _ (hNess _ (hLy _ (hS _ hw)))))

/-- Character-predicate preservation through the whole token
normalizer. -/
theorem pres_normalizeToken (P : Char → Bool)
    (hlow : ∀ c, P c = true → P (lowerChar c) = true)
    (hap : P '\'' = true)
    (haz : ∀ c : Char, 'a' ≤ c → c ≤ 'z' → P c = true)
    (raw : Str) (hraw : ∀ c ∈ raw, P c = true) :
    ∀ c ∈ normalizeToken raw, P c = true := by
  have h1 : ∀ c ∈ preStrip raw, P c = true :=
    pres_canonContractions P haz _
      (pres_replaceFirstCurly P hap _ (pres_jsLower P hlow raw hraw))
  show ∀ c ∈ (if raw = [] then []
    else if (stripRules (preStrip raw)).length < 2 then preStrip raw
    else stripRules (preStrip raw)), P c = true
  split
  · intro c hc; cases hc
  · split
    · exact h1
    · exact pres_stripRules P _ h1

/-- Every token the tokenizer produces is free of spaces. -/
theorem tokenize_no_space (text : Str) : ∀ w ∈ tokenize text, hasSpace w = false := by
  intro w hw
  rcases List.mem_map.mp hw with ⟨r, hr, rfl⟩
  have hrw : ∀ c ∈ r, isWordChar c = true :=
    splitRunsGo_wordChar (jsLower text) [] (by intro c hc; cases hc) r hr
  have hP : ∀ c ∈ normalizeToken r, (!decide (c = ' ')) = true := by
    apply pres_normalizeToken
    · intro c hc
      have h1 : c ≠ ' ' := by simpa using hc
      simpa using lowerChar_ne_space c h1
    · decide
    · intro c h1 h2
      have : c ≠ ' ' := by
        intro he
        rw [he] at h1
        exact absurd h1 (by decide)
      simpa using this
    · intro c hc
      have h1 := hrw c hc
      have : c ≠ ' ' := by
        intro he
        rw [he] at h1
        exact absurd h1 (by decide)
      simpa using this
  rw [hasSpace, List.any_eq_false]
  intro c hc
  have := hP c hc
  simpa using this

/-- The contribution computation only consults the diminisher table at
space-free keys (the two look-back tokens), so tables agreeing on
space-free keys give identical contributions. -/
theorem contribFactor_dims_eq (words : List Str) (dims dims' : List (Str × ℚ))
    (boost : Nat → ℚ) (i : Nat) (base : ℚ)
    (h : ∀ k : Str, hasSpace k = false → lookupTab dims k = lookupTab dims' k)
    (hw : ∀ w ∈ words, hasSpace w = false) :
    contribFactor words dims boost i base = contribFactor words dims' boost i base := by
  have hprev : hasSpace (if 1 ≤ i then words.getD (i - 1) [] else []) = false := by
    split
    · exact getD_prop (fun w => hasSpace w = false) words hw rfl (i - 1)
    · rfl
  have hprev2 : hasSpace (if 2 ≤ i then words.getD (i - 2) [] else []) = false := by
    split
    · exact getD_prop (fun w => hasSpace w = false) words hw rfl (i - 2)
    · rfl
  simp only [contribFactor]
  rw [h _ hprev, h _ hprev2]

/-- Scan-step version of the previous lemma. -/
theorem scanStep_dims_eq (words : List Str) (lex : Lexicon)
    (phrases : List PhraseEntry) (dims dims' : List (Str × ℚ)) (boost : Nat → ℚ)
    (st : ScanState) (i : Nat)
    (h : ∀ k : Str, hasSpace k = false → lookupTab dims k = lookupTab dims' k)
    (hw : ∀ w ∈ words, hasSpace w = false) :
    scanStep words lex phrases dims boost st i
      = scanStep words lex phrases dims' boost st i := by
  have hc : ∀ b : ℚ, contribFactor words dims boost i b = contribFactor words dims' boost i b :=
    fun b => contribFactor_dims_eq words dims dims' boost i b h hw
  unfold scanStep
  split
  · rfl
  · cases hf : findPhrase words i phrases with
    | some p => simp [hc]
    | none =>
      dsimp only
      congr 1
      funext acc e
      cases lookupTab (lex.table e) (words.getD i []) <;> simp [hc]

/-- Whole-scan version. -/
theorem scoreCore_dims_eq (words : List Str) (lex : Lexicon)
    (phrases : List PhraseEntry) (dims dims' : List (Str × ℚ)) (boost : Nat → ℚ)
    (h : ∀ k : Str, hasSpace k = false → lookupTab dims k = lookupTab dims' k)
    (hw : ∀ w ∈ words, hasSpace w = false) :
    scoreCore words lex phrases dims boost = scoreCore words lex phrases dims' boost := by
  unfold scoreCore
  congr 1
  funext st i
  exact scanStep_dims_eq words lex phrases dims dims' boost st i h hw

/-- C8: `getPostDiminisher` checks the 4-, 3-, 2-, then 1-word window of
the tokens following position `i` against the diminisher table and returns
the first matching window's factor, else 1.0; and the scoring loop never
invokes it — the emotion totals depend only on the two-token look-back at
single-word diminisher keys, so the multi-word diminisher entries (such as
"a little bit") never affect any score result. -/
theorem c8_post_diminisher_lookahead_unused :
    (∀ (words : List Str) (i : Nat), (∀ w ∈ words, wfTok w) →
      getPostDiminisher words i = postDiminisherWindows words i) ∧
    (∀ (text : Str) (lexicon : Option Lexicon) (phrases : List PhraseEntry),
      scoreTextWithContext text lexicon phrases
        = scoreTextSingleDim text lexicon phrases) := by
  constructor
  · exact getPostDiminisher_windows
  · intro text lexicon phrases
    cases lexicon with
    | none => rfl
    | some lex =>
      have hagree : ∀ k : Str, hasSpace k = false →
          lookupTab DIMINISHERS k = lookupTab dimSinglesOnly k :=
        fun k hk => (lookupTab_filter_not_hasSpace DIMINISHERS k hk).symm
      have hcore : scoreCore (tokenize text) lex phrases DIMINISHERS
            (contrastFactor (findIdxO isContrastWord (tokenize text)))
          = scoreCore (tokenize text) lex phrases dimSinglesOnly
            (contrastFactor (findIdxO isContrastWord (tokenize text))) :=
        scoreCore_dims_eq (tokenize text) lex phrases DIMINISHERS dimSinglesOnly
          (contrastFactor (findIdxO isContrastWord (tokenize text))) hagree
          (tokenize_no_space text)
      have hL : scoreTextWithContext text (some lex) phrases
          = if (tokenize text).length = 0 then ⟨0, 0, 0, 0, (tokenize text).length⟩
            else
              mkResult (tokenize text)
                (scoreCore (tokenize text) lex phrases DIMINISHERS
                  (contrastFactor (findIdxO isContrastWord (tokenize text)))) := rfl
      have hR : scoreTextSingleDim text (some lex) phrases
          = if (tokenize text).length = 0 then ⟨0, 0, 0, 0, (tokenize text).length⟩
            else
              mkResult (tokenize text)
                (scoreCore (tokenize text) lex phrases dimSinglesOnly
                  (contrastFactor (findIdxO isContrastWord (tokenize text)))) := rfl
      rw [hL, hR, hcore]

/-- C8 witness: the lookahead sees "a little bit" (factor 0.45) through
its 3-token window, matching the spec-side window reading; and a text
whose look-back can only involve single-word diminishers scores
identically under the filtered table. -/
theorem c8_witness :
    getPostDiminisher [str "feel", str "a", str "little", str "bit"] 0
      = postDiminisherWindows [str "feel", str "a", str "little", str "bit"] 0 ∧
    postDiminisherWindows [str "feel", str "a", str "little", str "bit"] 0 = 0.45 ∧
    scoreTextWithContext (str "kinda sad but happy") (some ⟨[], [], []⟩) []
      = scoreTextSingleDim (str "kinda sad but happy") (some ⟨[], [], []⟩) [] :=
  ⟨c8_post_diminisher_lookahead_unused.1
      [str "feel", str "a", str "little", str "bit"] 0
      (by
        intro w hw
        simp only [List.mem_cons, List.not_mem_nil, or_false] at hw
        rcases hw with rfl | rfl | rfl | rfl <;> exact ⟨by decide, by decide⟩),
    rfl,
    c8_post_diminisher_lookahead_unused.2 (str "kinda sad but happy")
      (some ⟨[], [], []⟩) []⟩

/-- Overwriting every entry at key `k` makes the lookup return the new
value, provided some entry has key `k`. -/
theorem lookup_map_set (m : List (Str × ℚ)) (k : Str) (v : ℚ)
    (hany : m.any (fun e => decide (e.1 = k)) = true) :
    lookupTab (m.map fun e => if e.1 = k then (k, v) else e) k = some v := by
  induction m with
  | nil => simp at hany
  | cons e t ih =>
    by_cases he : e.1 = k
    · simp [List.map_cons, lookupTab, he]
    · have hany' : t.any (fun e => decide (e.1 = k)) = true := by
        simpa [List.any_cons, he] using hany
      simp [List.map_cons, lookupTab, he, ih hany']

/-- Appending a fresh `(k, v)` entry to a map without key `k` makes the
lookup return `v`. -/
theorem lookup_append_single (m : List (Str × ℚ)) (k : Str) (v : ℚ)
    (hnone : lookupTab m k = none) :
    lookupTab (m ++ [(k, v)]) k = some v := by
  induction m with
  | nil =>
    show lookupTab [(k, v)] k = some v
    simp [lookupTab]
  | cons e t ih =>
    by_cases he : e.1 = k
    · simp [lookupTab, he] at hnone
    · simp only [lookupTab, he, if_false] at hnone
      simp only [List.cons_append, lookupTab, he, if_false]
      exact ih hnone

/-- A key occurs in the map iff its lookup succeeds. -/
theorem lookup_none_of_not_any (m : List (Str × ℚ)) (k : Str)
    (h : m.any (fun e => decide (e.1 = k)) = false) :
    lookupTab m k = none := by
  induction m with
  | nil => rfl
  | cons e t ih =>
    simp only [List.any_cons, Bool.or_eq_false_iff] at h
    have he : e.1 ≠ k := by simpa using h.1
    simp [lookupTab, he, ih h.2]

/-- `obj[k] = v` then `obj[k]` reads back `v`. -/
theorem lookup_updAssoc_self (m : List (Str × ℚ)) (k : Str) (v : ℚ) :
    lookupTab (updAssoc m k v) k = some v := by
  unfold updAssoc
  split
  · rename_i hany
    exact lookup_map_set m k v hany
  · rename_i hany
    have h : m.any (fun e => decide (e.1 = k)) = false := by
      revert hany
      cases m.any (fun e => decide (e.1 = k)) <;> simp
    exact lookup_append_single m k v (lookup_none_of_not_any m k h)

/-- Overwriting at key `k'` leaves lookups at other keys unchanged. -/
theorem lookup_map_set_other (m : List (Str × ℚ)) (k' k : Str) (v : ℚ)
    (hne : k' ≠ k) :
    lookupTab (m.map fun e => if e.1 = k' then (k', v) else e) k = lookupTab m k := by
  induction m with
  | nil => rfl
  | cons e t ih =>
    by_cases he : e.1 = k'
    · have hek : e.1 ≠ k := by rw [he]; exact hne
      simp [List.map_cons, lookupTab, he, hek, hne, ih]
    · by_cases hk : e.1 = k
      · simp [List.map_cons, lookupTab, he, hk, Ne.symm hne]
      · simp [List.map_cons, lookupTab, he, hk, ih]

/-- Appending a fresh entry at key `k'` leaves lookups at other keys
unchanged. -/
theorem lookup_append_single_other (m : List (Str × ℚ)) (k' k : Str) (v : ℚ)
    (hne : k' ≠ k) :
    lookupTab (m ++ [(k', v)]) k = lookupTab m k := by
  induction m with
  | nil =>
    show lookupTab [(k', v)] k = none
    simp [lookupTab, hne]
  | cons e t ih =>
    by_cases he : e.1 = k
    · simp [lookupTab, he]
    · simp only [List.cons_append, lookupTab, he, if_false]
      exact ih

/-- `obj[k'] = v` leaves the lookup at any other key unchanged. -/
theorem lookup_updAssoc_other (m : List (Str × ℚ)) (k' k : Str) (v : ℚ)
    (hne : k' ≠ k) :
    lookupTab (updAssoc m k' v) k = lookupTab m k := by
  unfold updAssoc
  split
  · exact lookup_map_set_other m k' k v hne
  · exact lookup_append_single_other m k' k v hne

/-- Reading back the key just max-inserted. -/
theorem lookup_insMax_self (m : List (Str × ℚ)) (k : Str) (v : ℚ) :
    lookupTab (insMax m k v) k = some (max ((lookupTab m k).getD 0) v) :=
  lookup_updAssoc_self m k _

/-- Max-insertion at another key does not disturb a lookup. -/
theorem lookup_insMax_other (m : List (Str × ℚ)) (k' k : Str) (v : ℚ)
    (hne : k' ≠ k) :
    lookupTab (insMax m k' v) k = lookupTab m k :=
  lookup_updAssoc_other m k' k _ hne

/-- A key absent from the key list looks up to `none`. -/
theorem lookup_eq_none_of_not_mem_keys (l : List (Str × ℚ)) (k : Str)
    (h : k ∉ l.map Prod.fst) :
    lookupTab l k = none := by
  induction l with
  | nil => rfl
  | cons e t ih =>
    simp only [List.map_cons, List.mem_cons, not_or] at h
    obtain ⟨h1, h2⟩ := h
    have hne : e.1 ≠ k := fun he => h1 he.symm
    simp [lookupTab, hne, ih h2]

/-- `hasSpace` as a membership statement. -/
theorem hasSpace_eq_false_iff (w : Str) : hasSpace w = false ↔ ∀ c ∈ w, c ≠ ' ' := by
  simp [hasSpace, List.any_eq_false]

/-- ASCII folding sends a space exactly to a space. -/
theorem lowerChar_eq_space_iff (c : Char) : lowerChar c = ' ' ↔ c = ' ' := by
  constructor
  · intro h
    by_contra hne
    exact lowerChar_ne_space c hne h
  · intro h
    rw [h]
    decide

/-- Lower-casing neither creates nor removes spaces. -/
theorem hasSpace_jsLower (l : Str) : hasSpace (jsLower l) = hasSpace l := by
  induction l with
  | nil => rfl
  | cons a t ih =>
    have h : decide (lowerChar a = ' ') = decide (a = ' ') :=
      decide_eq_decide.mpr (lowerChar_eq_space_iff a)
    simp only [hasSpace, jsLower, List.map_cons, List.any_cons] at ih ⊢
    rw [h, ih]

/-- The token normalizer never introduces a space. -/
theorem normalizeToken_no_space (w : Str) (h : hasSpace w = false) :
    hasSpace (normalizeToken w) = false := by
  have hmem : ∀ c ∈ w, c ≠ ' ' := (hasSpace_eq_false_iff w).mp h
  have hP : ∀ c ∈ normalizeToken w, (!decide (c = ' ')) = true := by
    apply pres_normalizeToken
    · intro c hc
      have h1 : c ≠ ' ' := by simpa using hc
      simpa using lowerChar_ne_space c h1
    · decide
    · intro c h1 h2
      have : c ≠ ' ' := by
        intro he
        rw [he] at h1
        exact absurd h1 (by decide)
      simpa using this
    · intro c hc
      simpa using hmem c hc
  rw [hasSpace_eq_false_iff]
  intro c hc
  simpa using hP c hc

/-- Folding the per-entry max-insertions over a single-word key `k`
accumulates exactly `Math.max` over the weights whose normalized forms hit
`k`, on top of whatever the accumulator already holds. -/
theorem normEntriesGo_single (entries : List (Str × ℚ)) :
    ∀ (out : List (Str × ℚ)) (k : Str), hasSpace k = false →
      lookupTab (normEntriesGo out entries) k
        = combineMax (lookupTab out k) (contribs entries k) := by
  induction entries with
  | nil => intro out k _; rfl
  | cons e rest ih =>
    intro out k hk
    by_cases hs : hasSpace e.1 = true
    · have hne : e.1 ≠ k := by
        intro he
        rw [he, hk] at hs
        cases hs
      have hcontribs : contribs (e :: rest) k = contribs rest k := by
        simp [contribs, List.filterMap_cons, hs]
      rw [show normEntriesGo out (e :: rest) = normEntriesGo (updAssoc out e.1 e.2) rest from by
        simp [normEntriesGo, hs]]
      rw [ih (updAssoc out e.1 e.2) k hk, lookup_updAssoc_other out e.1 k e.2 hne, hcontribs]
    · have hs' : hasSpace e.1 = false := by
        revert hs
        cases hasSpace e.1 <;> simp
      rw [show normEntriesGo out (e :: rest)
          = normEntriesGo
              (insMax (insMax out (jsLower e.1) e.2) (normalizeToken (jsLower e.1)) e.2)
              rest from by simp [normEntriesGo, hs']]
      rw [ih _ k hk]
      by_cases h1 : jsLower e.1 = k <;> by_cases h2 : normalizeToken (jsLower e.1) = k
      · -- both normalized forms hit k
        have hc : contribs (e :: rest) k = e.2 :: contribs rest k := by
          simp [contribs, List.filterMap_cons, hs', h1]
        have hin : lookupTab
            (insMax (insMax out (jsLower e.1) e.2) (normalizeToken (jsLower e.1)) e.2) k
            = some (max ((lookupTab out k).getD 0) e.2) := by
          rw [h2, h1, lookup_insMax_self, lookup_insMax_self]
          simp only [Option.getD_some]
          rw [max_assoc, max_self]
        rw [hin, hc]
        rfl
      · -- only the lower-cased form hits k
        have hc : contribs (e :: rest) k = e.2 :: contribs rest k := by
          simp [contribs, List.filterMap_cons, hs', h1]
        have hin : lookupTab
            (insMax (insMax out (jsLower e.1) e.2) (normalizeToken (jsLower e.1)) e.2) k
            = some (max ((lookupTab out k).getD 0) e.2) := by
          rw [lookup_insMax_other _ _ _ _ h2, h1, lookup_insMax_self]
        rw [hin, hc]
        rfl
      · -- only the stemmed form hits k
        have hc : contribs (e :: rest) k = e.2 :: contribs rest k := by
          simp [contribs, List.filterMap_cons, hs', h1, h2]
        have hin : lookupTab
            (insMax (insMax out (jsLower e.1) e.2) (normalizeToken (jsLower e.1)) e.2) k
            = some (max ((lookupTab out k).getD 0) e.2) := by
          rw [h2, lookup_insMax_self, lookup_insMax_other _ _ _ _ h1]
        rw [hin, hc]
        rfl
      · -- neither form hits k
        have hc : contribs (e :: rest) k = contribs rest k := by
          simp [contribs, List.filterMap_cons, hs', h1, h2]
        rw [lookup_insMax_other _ _ _ _ h2, lookup_insMax_other _ _ _ _ h1, hc]

/-- At a multi-word key, the fold behaves as plain overwrite: the
normalized table holds the key's (unique, by `Nodup`) raw weight, else
whatever the accumulator held. -/
theorem normEntriesGo_spaced (entries : List (Str × ℚ)) :
    ∀ (out : List (Str × ℚ)) (k : Str), hasSpace k = true →
      (entries.map Prod.fst).Nodup →
      lookupTab (normEntriesGo out entries) k
        = ((lookupTab entries k).orElse fun _ => lookupTab out k) := by
  induction entries with
  | nil => intro out k _ _; rfl
  | cons e rest ih =>
    intro out k hk hnd
    obtain ⟨hnotin, hnd'⟩ : e.1 ∉ rest.map Prod.fst ∧ (rest.map Prod.fst).Nodup := by
      simpa [List.nodup_cons] using hnd
    by_cases hs : hasSpace e.1 = true
    · rw [show normEntriesGo out (e :: rest) = normEntriesGo (updAssoc out e.1 e.2) rest from by
        simp [normEntriesGo, hs]]
      by_cases he : e.1 = k
      · have hrnone : lookupTab rest k = none := by
          apply lookup_eq_none_of_not_mem_keys
          rw [← he]
          exact hnotin
        have hupd : lookupTab (updAssoc out e.1 e.2) k = some e.2 := by
          rw [he]
          exact lookup_updAssoc_self out k e.2
        rw [ih _ k hk hnd', hrnone, hupd,
          show lookupTab (e :: rest) k = some e.2 from by simp [lookupTab, he]]
        rfl
      · rw [ih _ k hk hnd', lookup_updAssoc_other out e.1 k e.2 he,
          show lookupTab (e :: rest) k = lookupTab rest k from by simp [lookupTab, he]]
    · have hs' : hasSpace e.1 = false := by
        revert hs
        cases hasSpace e.1 <;> simp
      have hne1 : jsLower e.1 ≠ k := by
        intro he
        have h0 : hasSpace (jsLower e.1) = false := by
          rw [hasSpace_jsLower]
          exact hs'
        rw [he, hk] at h0
        cases h0
      have hne2 : normalizeToken (jsLower e.1) ≠ k := by
        intro he
        have h0 : hasSpace (normalizeToken (jsLower e.1)) = false :=
          normalizeToken_no_space _ (by rw [hasSpace_jsLower]; exact hs')
        rw [he, hk] at h0
        cases h0
      have heK : e.1 ≠ k := by
        intro he
        rw [he, hk] at hs'
        cases hs'
      rw [show normEntriesGo out (e :: rest)
          = normEntriesGo
              (insMax (insMax out (jsLower e.1) e.2) (normalizeToken (jsLower e.1)) e.2)
              rest from by simp [normEntriesGo, hs']]
      rw [ih _ k hk hnd', lookup_insMax_other _ _ _ _ hne2, lookup_insMax_other _ _ _ _ hne1,
        show lookupTab (e :: rest) k = lookupTab rest k from by simp [lookupTab, heK]]

/-- `combineMax` from a seeded accumulator is a left fold of `max`. -/
theorem combineMax_some (vs : List ℚ) : ∀ a : ℚ, combineMax (some a) vs = some (vs.foldl max a) := by
  induction vs with
  | nil => intro a; rfl
  | cons v t ih =>
    intro a
    show combineMax (some (max a v)) t = some (t.foldl max (max a v))
    exact ih (max a v)

/-- On nonnegative weights, `combineMax` from the empty accumulator is the
list maximum, because the `?? 0` base never wins. -/
theorem combineMax_none_nonneg (vs : List ℚ) (h : ∀ v ∈ vs, 0 ≤ v) :
    combineMax none vs = maxListQ vs := by
  cases vs with
  | nil => rfl
  | cons v t =>
    have hv : max (0 : ℚ) v = v := max_eq_right (h v (List.mem_cons_self v t))
    show combineMax (some (max (0 : ℚ) v)) t = maxListQ (v :: t)
    rw [hv, combineMax_some]
    rfl

/-- Every listed value is bounded by the `max`-fold. -/
theorem le_foldl_max (t : List ℚ) : ∀ (a v : ℚ), (v = a ∨ v ∈ t) → v ≤ t.foldl max a := by
  induction t with
  | nil =>
    intro a v h
    rcases h with rfl | h
    · exact le_refl v
    · cases h
  | cons w t ih =>
    intro a v h
    rcases h with rfl | h
    · exact le_trans (le_max_left v w) (ih (max v w) _ (Or.inl rfl))
    · rcases List.mem_cons.mp h with rfl | h2
      · exact le_trans (le_max_right a v) (ih (max a v) _ (Or.inl rfl))
      · exact ih (max a w) v (Or.inr h2)

/-- A member of a weight list is bounded by its `maxListQ`. -/
theorem maxListQ_ge (vs : List ℚ) (v : ℚ) (hv : v ∈ vs) :
    ∃ m, maxListQ vs = some m ∧ v ≤ m := by
  cases vs with
  | nil => cases hv
  | cons w t =>
    refine ⟨t.foldl max w, rfl, le_foldl_max t w v ?_⟩
    rcases List.mem_cons.mp hv with rfl | h
    · exact Or.inl rfl
    · exact Or.inr h

/-- A single-word entry contributes its weight to both its lower-cased and
stemmed key. -/
theorem mem_contribs_of_entry (entries : List (Str × ℚ)) (ent : Str × ℚ)
    (hent : ent ∈ entries) (hs : hasSpace ent.1 = false) (k : Str)
    (hk : jsLower ent.1 = k ∨ normalizeToken (jsLower ent.1) = k) :
    ent.2 ∈ contribs entries k := by
  unfold contribs
  rw [List.mem_filterMap]
  exact ⟨ent, hent, by rw [if_pos ⟨hs, hk⟩]⟩

/-- Contributions inherit nonnegativity from the entry weights. -/
theorem contribs_nonneg (entries : List (Str × ℚ))
    (hw : ∀ e ∈ entries, 0 ≤ e.2) (k : Str) :
    ∀ v ∈ contribs entries k, 0 ≤ v := by
  intro v hv
  rcases List.mem_filterMap.mp hv with ⟨e, he, hfe⟩
  split at hfe
  · cases hfe
    exact hw e he
  · cases hfe

/-- C9: `normalizeLexiconKeys` inserts each single-word key under both its
lower-cased and its stemmed form; the value stored at a single-word key is
the maximum of all raw weights whose normalized forms collide there (no
weight is lost to a later smaller one); multi-word keys pass through
unchanged. -/
theorem c9_normalize_lexicon_keys (lex : Lexicon) (e : Emotion)
    (hpos : ∀ ent ∈ lex.table e, 0 ≤ ent.2)
    (hnd : ((lex.table e).map Prod.fst).Nodup) :
    (∀ k : Str, hasSpace k = true →
      lookupTab ((normalizeLexiconKeys lex).table e) k = lookupTab (lex.table e) k) ∧
    (∀ k : Str, hasSpace k = false →
      lookupTab ((normalizeLexiconKeys lex).table e) k
        = maxListQ (contribs (lex.table e) k)) ∧
    (∀ ent ∈ lex.table e, hasSpace ent.1 = false →
      (∃ v1, lookupTab ((normalizeLexiconKeys lex).table e) (jsLower ent.1) = some v1 ∧
        ent.2 ≤ v1) ∧
      (∃ v2, lookupTab ((normalizeLexiconKeys lex).table e)
          (normalizeToken (jsLower ent.1)) = some v2 ∧ ent.2 ≤ v2)) := by
  have htab : (normalizeLexiconKeys lex).table e = normEntries (lex.table e) := by
    cases e <;> rfl
  have hsingle : ∀ k : Str, hasSpace k = false →
      lookupTab (normEntries (lex.table e)) k = maxListQ (contribs (lex.table e) k) := by
    intro k hk
    rw [show normEntries (lex.table e) = normEntriesGo [] (lex.table e) from rfl,
      normEntriesGo_single (lex.table e) [] k hk]
    exact combineMax_none_nonneg _ (contribs_nonneg _ hpos k)
  rw [htab]
  refine ⟨?_, hsingle, ?_⟩
  · intro k hk
    rw [show normEntries (lex.table e) = normEntriesGo [] (lex.table e) from rfl,
      normEntriesGo_spaced (lex.table e) [] k hk hnd]
    rcases hx : lookupTab (lex.table e) k with _ | v
    · rfl
    · rfl
  · intro ent hent hs
    constructor
    · have hk1 : hasSpace (jsLower ent.1) = false := by
        rw [hasSpace_jsLower]
        exact hs
      obtain ⟨m, hm, hle⟩ :=
        maxListQ_ge _ _ (mem_contribs_of_entry _ ent hent hs _ (Or.inl rfl))
      exact ⟨m, by rw [hsingle _ hk1, hm], hle⟩
    · have hk2 : hasSpace (normalizeToken (jsLower ent.1)) = false :=
        normalizeToken_no_space _ (by rw [hasSpace_jsLower]; exact hs)
      obtain ⟨m, hm, hle⟩ :=
        maxListQ_ge _ _ (mem_contribs_of_entry _ ent hent hs _ (Or.inr rfl))
      exact ⟨m, by rw [hsingle _ hk2, hm], hle⟩

/-- C9 witness: raw keys "happy" (weight 1) and "happys" (weight 3)
collide after stemming; the normalized table holds the larger weight 3 at
"happy". -/
theorem c9_witness :
    lookupTab ((normalizeLexiconKeys ⟨entriesC9, [], []⟩).table Emotion.anger) (str "happy")
      = maxListQ (contribs entriesC9 (str "happy")) ∧
    maxListQ (contribs entriesC9 (str "happy")) = some 3 :=
  ⟨(c9_normalize_lexicon_keys ⟨entriesC9, [], []⟩ Emotion.anger (by decide)
      (by decide)).2.1 (str "happy") (by decide),
    by decide⟩
